import Mathlib

/-!
# Verification of the utility module of SJTU-Canvas-Helper

Shallow embedding of the `utils` source file: `formatDate`,
`base64ToArrayBuffer`, `base64ToFile` and `getFileType`, together with models
of the host primitives they call (`Date` parsing, `atob`, `Blob`/`File`
construction, `String.prototype.split` / `toLowerCase` / `padStart`).

Machine strings are Lean `String`s (lists of `Char`); byte buffers are
`List Nat` with every entry below 256.
-/

namespace CanvasHelper

/-! ## Host string primitives -/

/-- Model of JavaScript `String.prototype.toLowerCase` (ASCII range, which is
all the classifier's lookup table uses): lowercase every character. -/
def jsToLower (s : String) : String :=
  String.mk (s.data.map Char.toLower)

/-- Model of JavaScript `"x".split('.')` at the character-list level: split a
character list at every `'.'`; the result is always non-empty, and splitting a
dot-free list returns that list as the single segment. -/
def splitDot : List Char → List (List Char)
  | [] => [[]]
  | c :: rest =>
    if c = '.' then [] :: splitDot rest
    else
      match splitDot rest with
      | [] => [[c]]
      | seg :: segs => (c :: seg) :: segs

/-- Model of JavaScript `String.prototype.padStart(2, '0')`: left-pad with
`'0'` to length 2 (a string already of length ≥ 2 is unchanged). -/
def padStart2 (s : String) : String :=
  if s.length ≥ 2 then s else String.mk (List.replicate (2 - s.length) '0') ++ s

/-! ## DateFormatter (`formatDate`) -/

/-- Calendar components of a successfully parsed `Date`, as read back by the
accessors the source uses: `getFullYear`, `getMonth` (0-indexed),
`getDate`, `getHours`, `getMinutes`, in the host's local time zone. -/
structure DateComponents where
  year : Nat
  month : Nat
  day : Nat
  hours : Nat
  minutes : Nat
deriving DecidableEq, Repr

/-- Stringification of a JavaScript number that is either a `Nat` or `NaN`
(`none`): `new Date(bad).getFullYear()` etc. return `NaN`, whose
`toString()` is the three-character string `"NaN"`. -/
def jsNumToString : Option Nat → String
  | none => "NaN"
  | some n => toString n

/-- Embedding of the source function `formatDate`, parameterised by the host
date parser `parse` (`new Date(inputDate)` followed by the component
accessors; an invalid date is `none`, making every accessor return `NaN`):

```
export function formatDate(inputDate: string): string {
    if (!inputDate) { return ""; }
    const date = new Date(inputDate);
    const year = date.getFullYear();
    const month = (date.getMonth() + 1).toString().padStart(2, '0');
    const day = date.getDate().toString().padStart(2, '0');
    const hours = date.getHours().toString().padStart(2, '0');
    const minutes = date.getMinutes().toString().padStart(2, '0');
    return year + "/" + month + "/" + day + " " + hours + ":" + minutes;
}
``` -/
def formatDate (parse : String → Option DateComponents) (inputDate : String) : String :=
  if inputDate = "" then ""
  else
    let date := parse inputDate
    let year := jsNumToString (date.map (fun d => d.year))
    let month := padStart2 (jsNumToString (date.map (fun d => d.month + 1)))
    let day := padStart2 (jsNumToString (date.map (fun d => d.day)))
    let hours := padStart2 (jsNumToString (date.map (fun d => d.hours)))
    let minutes := padStart2 (jsNumToString (date.map (fun d => d.minutes)))
    year ++ "/" ++ month ++ "/" ++ day ++ " " ++ hours ++ ":" ++ minutes

/-- Model of the host date parser (`new Date(s)` plus local-time accessors) on
the concrete strings the examples use. Per the ECMA-262 Date Time String
Format, `"2023-01-05T09:03:00"` parses to local components year 2023, month
index 0, day 5, 09:03, and `"0202-01-05T09:03:00"` parses the same way with
year 202; strings this model does not recognise are treated as unparseable
(an Invalid Date). -/
def hostParse : String → Option DateComponents :=
  fun s =>
    if s = "2023-01-05T09:03:00" then some ⟨2023, 0, 5, 9, 3⟩
    else if s = "0202-01-05T09:03:00" then some ⟨202, 0, 5, 9, 3⟩
    else none

/-- Checker for the display pattern `YYYY/MM/DD HH:mm` claimed by the spec:
exactly 16 characters, decimal digits in the four year positions and the four
two-digit fields, with literal `/`, `/`, space and `:` separators. -/
def matchesYMDHM (s : String) : Bool :=
  match s.data with
  | [y1, y2, y3, y4, a1, m1, m2, a2, d1, d2, a3, h1, h2, a4, n1, n2] =>
    y1.isDigit && y2.isDigit && y3.isDigit && y4.isDigit &&
    a1 == '/' && m1.isDigit && m2.isDigit && a2 == '/' &&
    d1.isDigit && d2.isDigit && a3 == ' ' &&
    h1.isDigit && h2.isDigit && a4 == ':' && n1.isDigit && n2.isDigit
  | _ => false

/-! ## BinaryCodec (`base64ToArrayBuffer`, `base64ToFile`) -/

/-- The standard base64 alphabet, in index order. -/
def base64Alphabet : List Char :=
  "ABCDEFGHIJKLMNOPQRSTUVWXYZabcdefghijklmnopqrstuvwxyz0123456789+/".data

/-- Character of the standard base64 alphabet at a 6-bit index. -/
def b64CharAt (i : Nat) : Char :=
  base64Alphabet.getD i 'A'

/-- Index of a character in the standard base64 alphabet, `none` when the
character is not in the alphabet. -/
def b64CharVal (c : Char) : Option Nat :=
  base64Alphabet.findIdx? (fun x => x == c)

/-- ASCII whitespace, which the host's forgiving-base64 decoder strips. -/
def isAsciiWhitespace (c : Char) : Bool :=
  c == '\t' || c == '\n' || c == '\x0c' || c == '\r' || c == ' '

/-- Remove up to two trailing `'='` characters (the padding-stripping step of
the WHATWG forgiving-base64 decode): if the last character is `'='` drop it,
then likewise for the new last character. -/
def dropTrailingEq (data : List Char) : List Char :=
  match data.reverse with
  | [] => data
  | c1 :: rest =>
    if c1 = '=' then
      match rest with
      | [] => []
      | c2 :: rest2 => if c2 = '=' then rest2.reverse else rest.reverse
    else data

/-- Padding strip of forgiving-base64: only applied when the whitespace-free
input length is a multiple of 4. -/
def stripPadding (data : List Char) : List Char :=
  if data.length % 4 == 0 then dropTrailingEq data else data

/-- Bit reassembly of forgiving-base64: each group of four 6-bit values yields
three bytes; a trailing group of two values yields one byte and of three
values two bytes (the leftover low bits are discarded). A trailing single
value cannot occur, since a total length ≡ 1 (mod 4) was rejected earlier. -/
def decode6 : List Nat → List Nat
  | a :: b :: c :: d :: rest =>
    (a * 4 + b / 16) :: ((b % 16) * 16 + c / 4) :: ((c % 4) * 64 + d) :: decode6 rest
  | [a, b] => [a * 4 + b / 16]
  | [a, b, c] => [a * 4 + b / 16, (b % 16) * 16 + c / 4]
  | _ => []

/-- Alphabet validation of forgiving-base64: the 6-bit value of every
character, failing on the first character outside the alphabet. -/
def mapVals : List Char → Option (List Nat)
  | [] => some []
  | c :: rest =>
    match b64CharVal c, mapVals rest with
    | some v, some vs => some (v :: vs)
    | _, _ => none

/-- Model of the host's `atob` (WHATWG forgiving-base64 decode): strip ASCII
whitespace; if the length is a multiple of 4, drop up to two trailing `'='`;
fail when the remaining length is ≡ 1 (mod 4) or any character is outside the
base64 alphabet; otherwise reassemble the 6-bit values into bytes and return
them as a binary string (one character per byte, code point = byte value).
Failure (`none`) models the `InvalidCharacterError` exception `atob` throws. -/
def atob (s : String) : Option String :=
  let data := stripPadding (s.data.filter (fun c => !isAsciiWhitespace c))
  if data.length % 4 == 1 then none
  else
    (mapVals data).map (fun vals => String.mk ((decode6 vals).map Char.ofNat))

/-- Embedding of the source function `base64ToArrayBuffer`:

```
export function base64ToArrayBuffer(base64: string) {
    let binaryString = atob(base64);
    let length = binaryString.length;
    let bytes = new Uint8Array(length);
    for (let i = 0; i < length; i++) { bytes[i] = binaryString.charCodeAt(i); }
    return bytes.buffer;
}
```

The returned buffer is the byte list; `none` is the uncaught `atob` exception
propagating to the caller. `charCodeAt i` is the code of the character at
index `i` of the binary string. -/
def base64ToArrayBuffer (base64 : String) : Option (List Nat) :=
  (atob base64).map (fun binaryString =>
    let length := binaryString.length
    (List.range length).map (fun i => (binaryString.data.getD i 'A').toNat))

/-- UTF-8 encoding of one character, as the host `Blob` constructor applies to
each character of a string it is built from. -/
def utf8EncodeChar (c : Char) : List Nat :=
  let n := c.toNat
  if n < 128 then [n]
  else if n < 2048 then [192 + n / 64, 128 + n % 64]
  else if n < 65536 then [224 + n / 4096, 128 + (n / 64) % 64, 128 + n % 64]
  else [240 + n / 262144, 128 + (n / 4096) % 64, 128 + (n / 64) % 64, 128 + n % 64]

/-- A host `File` object as observable here: its backing bytes and its name. -/
structure JsFile where
  bytes : List Nat
  name : String
deriving DecidableEq, Repr

/-- Embedding of the source function `base64ToFile`:

```
export function base64ToFile(base64: string, filename: string) {
    let binaryString = atob(base64);
    let blob = new Blob([binaryString]);
    let file = new File([blob], filename);
    return file;
}
```

`new Blob([binaryString])` UTF-8-encodes the string, so each character of the
binary string contributes its UTF-8 byte sequence; `new File([blob], filename)`
wraps those bytes under `filename` unchanged. `none` is the uncaught `atob`
exception propagating to the caller. -/
def base64ToFile (base64 : String) (filename : String) : Option JsFile :=
  (atob base64).map (fun binaryString =>
    ⟨(binaryString.data.map utf8EncodeChar).flatten, filename⟩)

/-- Modelled from the spec: the reference standard-base64 encoder
(`encodeBase64`), which the spec introduces only to state the round-trip law;
it is not part of the repository. Each group of three bytes becomes four
alphabet characters; a trailing group of two bytes becomes three characters
plus one `'='`, and of one byte two characters plus two `'='`. -/
def encode3 : List Nat → List Char
  | x :: y :: z :: rest =>
    b64CharAt (x / 4) :: b64CharAt ((x % 4) * 16 + y / 16) ::
      b64CharAt ((y % 16) * 4 + z / 64) :: b64CharAt (z % 64) :: encode3 rest
  | [x, y] => [b64CharAt (x / 4), b64CharAt ((x % 4) * 16 + y / 16), b64CharAt ((y % 16) * 4), '=']
  | [x] => [b64CharAt (x / 4), b64CharAt ((x % 4) * 16), '=', '=']
  | [] => []

/-- Modelled from the spec: the reference encoder as a string-valued function. -/
def encodeBase64 (bytes : List Nat) : String :=
  String.mk (encode3 bytes)

/-- The 6-bit values of the reference encoding, without the padding
characters (proof helper for the round-trip law). -/
def valsOf : List Nat → List Nat
  | x :: y :: z :: rest =>
    x / 4 :: ((x % 4) * 16 + y / 16) :: ((y % 16) * 4 + z / 64) :: (z % 64) :: valsOf rest
  | [x, y] => [x / 4, (x % 4) * 16 + y / 16, (y % 16) * 4]
  | [x] => [x / 4, (x % 4) * 16]
  | [] => []

/-! ## FileTypeClassifier (`getFileType`) -/

/-- The fixed extension table of the source, in source order.

```
const fileExtensions: Record<string, string> = { bmp: "image/bmp", ... };
``` -/
def fileExtensions : List (String × String) :=
  [("bmp", "image/bmp"), ("csv", "text/csv"), ("doc", "doc"), ("docx", "doc"),
   ("gif", "image/gif"), ("jpg", "image/jpg"), ("jpeg", "image/jpeg"),
   ("pptx", "ppt"), ("pdf", "application/pdf"), ("png", "image/png"),
   ("tiff", "image/tiff"), ("mp4", "video/mp4")]

/-- Embedding of the source function `getFileType`:

```
export function getFileType(filename: string): string {
    const extension = filename.split('.').pop()?.toLowerCase();
    if (extension && fileExtensions[extension]) {
        return fileExtensions[extension];
    } else {
        return extension ?? "";
    }
}
```

`split('.').pop()` is the last segment of `splitDot` (`pop` on a non-empty
array; `split` never returns an empty array, so the `none` branch is the
unreachable `undefined` case of `?.`). The guard `extension &&
fileExtensions[extension]` requires the extension to be truthy (non-empty)
and the table to contain it (every table value is a non-empty, hence truthy,
string); otherwise `extension ?? ""` returns the extension itself. -/
def getFileType (filename : String) : String :=
  let extension := ((splitDot filename.data).getLast?).map
    (fun seg => jsToLower (String.mk seg))
  match extension with
  | none => ""
  | some e =>
    match (if e = "" then none else fileExtensions.lookup e) with
    | some label => label
    | none => e

/-! ## Lemmas about `splitDot` -/

theorem splitDot_ne_nil (l : List Char) : splitDot l ≠ [] := by
  cases l with
  | nil => simp [splitDot]
  | cons c rest =>
    simp only [splitDot]
    by_cases hc : c = '.'
    · simp [hc]
    · simp only [if_neg hc]
      cases hs : splitDot rest <;> simp

theorem splitDot_of_not_mem {l : List Char} (h : '.' ∉ l) : splitDot l = [l] := by
  induction l with
  | nil => rfl
  | cons c rest ih =>
    have hc : c ≠ '.' := by
      intro he
      exact h (by simp [he])
    have hr : '.' ∉ rest := fun hm => h (List.mem_cons_of_mem _ hm)
    simp only [splitDot, if_neg hc, ih hr]

theorem splitDot_length_two {l : List Char} (h : '.' ∈ l) : 2 ≤ (splitDot l).length := by
  induction l with
  | nil => simp at h
  | cons c rest ih =>
    by_cases hc : c = '.'
    · subst hc
      simp only [splitDot, if_pos rfl, List.length_cons]
      cases hs : splitDot rest with
      | nil => exact absurd hs (splitDot_ne_nil rest)
      | cons a t => simp
    · have hr : '.' ∈ rest := by
        rcases List.mem_cons.mp h with h1 | h1
        · exact absurd h1.symm hc
        · exact h1
      simp only [splitDot, if_neg hc]
      cases hs : splitDot rest with
      | nil => exact absurd hs (splitDot_ne_nil rest)
      | cons seg segs =>
        have hlen := ih hr
        rw [hs] at hlen
        simp only [List.length_cons] at hlen ⊢
        omega

theorem splitDot_getLast?_of_mem {l : List Char} (h : '.' ∈ l) :
    ∃ pre ext, l = pre ++ '.' :: ext ∧ '.' ∉ ext ∧ (splitDot l).getLast? = some ext := by
  induction l with
  | nil => simp at h
  | cons c rest ih =>
    by_cases hc : c = '.'
    · subst hc
      by_cases hr : '.' ∈ rest
      · obtain ⟨pre, ext, heq, hne, hlast⟩ := ih hr
        refine ⟨'.' :: pre, ext, by simp [heq], hne, ?_⟩
        simp only [splitDot, eq_self_iff_true, if_true]
        cases hs : splitDot rest with
        | nil => exact absurd hs (splitDot_ne_nil rest)
        | cons a t => rw [List.getLast?_cons_cons, ← hs, hlast]
      · refine ⟨[], rest, rfl, hr, ?_⟩
        simp only [splitDot, if_pos rfl, splitDot_of_not_mem hr]
        rfl
    · have hr : '.' ∈ rest := by
        rcases List.mem_cons.mp h with h1 | h1
        · exact absurd h1.symm hc
        · exact h1
      obtain ⟨pre, ext, heq, hne, hlast⟩ := ih hr
      refine ⟨c :: pre, ext, by simp [heq], hne, ?_⟩
      simp only [splitDot, if_neg hc]
      cases hs : splitDot rest with
      | nil => exact absurd hs (splitDot_ne_nil rest)
      | cons seg segs =>
        have hlen := splitDot_length_two hr
        rw [hs] at hlen
        cases segs with
        | nil => simp at hlen
        | cons s2 segs' =>
          rw [hs] at hlast
          rw [List.getLast?_cons_cons] at hlast ⊢
          exact hlast

theorem splitDot_getLast?_of_ends_dot {l : List Char} (h : l.getLast? = some '.') :
    (splitDot l).getLast? = some [] := by
  have hmem : '.' ∈ l := List.mem_of_getLast?_eq_some h
  obtain ⟨pre, ext, heq, hne, hlast⟩ := splitDot_getLast?_of_mem hmem
  cases ext with
  | nil => exact hlast
  | cons e es =>
    exfalso
    rw [heq, List.getLast?_append, List.getLast?_cons_cons,
      List.getLast?_eq_getLast (e :: es) (by simp), Option.or_some] at h
    have hlt : (e :: es).getLast (by simp) = '.' := Option.some.inj h
    exact hne (hlt ▸ List.getLast_mem (by simp))
/-- The observable lookup step of the classifier on a lowercased extension:
the table's label when present, the extension itself otherwise. -/
theorem getFileType_of_getLast? {fn : String} {ext : List Char}
    (h : (splitDot fn.data).getLast? = some ext) :
    getFileType fn =
      ((fileExtensions.lookup (jsToLower (String.mk ext))).getD (jsToLower (String.mk ext))) := by
  unfold getFileType
  rw [h]
  simp only [Option.map_some']
  by_cases he : jsToLower (String.mk ext) = ""
  · rw [he]
    decide
  · simp only [if_neg he]
    cases hl : fileExtensions.lookup (jsToLower (String.mk ext)) with
    | none => simp [Option.getD]
    | some label => simp [Option.getD]

/-- C1 counterexample: `getFileType "README"` is `"readme"`, the lowercased
filename, not the empty string the claim demands. -/
theorem getFileType_README : getFileType "README" = "readme" ∧ ("readme" : String) ≠ "" := by
  constructor
  · decide
  · decide

/-- C1 (amended): for a filename with no `'.'`, the whole filename is the
extracted extension: `getFileType` returns the table label for the lowercased
filename when the table maps it, and otherwise the lowercased filename itself
(so the empty filename yields the empty string, but `"README"` yields
`"readme"`, not `""`). -/
theorem getFileType_no_dot (fn : String) (h : '.' ∉ fn.data) :
    getFileType fn = (fileExtensions.lookup (jsToLower fn)).getD (jsToLower fn) := by
  have hs : splitDot fn.data = [fn.data] := splitDot_of_not_mem h
  have hlast : (splitDot fn.data).getLast? = some fn.data := by rw [hs]; rfl
  have := getFileType_of_getLast? hlast
  simpa using this

/-- Witness for C1: the amended statement applied at `"README"`. -/
theorem getFileType_no_dot_witness :
    '.' ∉ ("README" : String).data ∧
      getFileType "README" =
        (fileExtensions.lookup (jsToLower "README")).getD (jsToLower "README") :=
  ⟨by decide, getFileType_no_dot "README" (by decide)⟩

/-- C4: for a filename containing a `'.'`, the extension is the substring
after the final `'.'` (the suffix containing no further dot); `getFileType`
lowercases it, returns the table's label when the lowercased extension is a
key of the fixed table and the lowercased extension itself otherwise; in
particular `"photo.JPG"` classifies as `"image/jpg"` and `"archive.tar.gz"`
as `"gz"`. -/
theorem getFileType_with_dot :
    (∀ fn : String, '.' ∈ fn.data →
      ∃ pre ext, fn.data = pre ++ '.' :: ext ∧ '.' ∉ ext ∧
        getFileType fn =
          ((fileExtensions.lookup (jsToLower (String.mk ext))).getD
            (jsToLower (String.mk ext)))) ∧
    getFileType "photo.JPG" = "image/jpg" ∧ getFileType "archive.tar.gz" = "gz" := by
  refine ⟨fun fn h => ?_, by decide, by decide⟩
  obtain ⟨pre, ext, heq, hne, hlast⟩ := splitDot_getLast?_of_mem (l := fn.data) h
  exact ⟨pre, ext, heq, hne, getFileType_of_getLast? hlast⟩

/-- Witness for C4: the universal part applied at `"photo.JPG"`. -/
theorem getFileType_with_dot_witness :
    '.' ∈ ("photo.JPG" : String).data ∧
      ∃ pre ext, ("photo.JPG" : String).data = pre ++ '.' :: ext ∧ '.' ∉ ext ∧
        getFileType "photo.JPG" =
          ((fileExtensions.lookup (jsToLower (String.mk ext))).getD
            (jsToLower (String.mk ext))) :=
  ⟨by decide, getFileType_with_dot.1 "photo.JPG" (by decide)⟩

/-- C10: the empty filename classifies as the empty string, and a filename
ending in `'.'` (empty final segment) classifies as the empty string. -/
theorem getFileType_empty_and_trailing_dot :
    getFileType "" = "" ∧
      ∀ fn : String, fn.data.getLast? = some '.' → getFileType fn = "" := by
  refine ⟨by decide, fun fn h => ?_⟩
  have hlast := splitDot_getLast?_of_ends_dot (l := fn.data) h
  have := getFileType_of_getLast? hlast
  simpa using this

/-- Witness for C10: the trailing-dot case applied at `"foo."`. -/
theorem getFileType_empty_and_trailing_dot_witness :
    ("foo." : String).data.getLast? = some '.' ∧ getFileType "foo." = "" :=
  ⟨by decide, getFileType_empty_and_trailing_dot.2 "foo." (by decide)⟩

/-! ## Decimal rendering of naturals

`Nat.repr` is fuel-based (`Nat.toDigitsCore`); `decDigitsAux` is the same
digit list without fuel, related to it by `toDigitsCore_eq_decDigitsAux`. -/

def decDigitsAux (n : Nat) : List Char :=
  if h : n / 10 = 0 then [Nat.digitChar (n % 10)]
  else decDigitsAux (n / 10) ++ [Nat.digitChar (n % 10)]
termination_by n
decreasing_by omega

theorem toDigitsCore_eq_decDigitsAux :
    ∀ (f n : Nat) (l : List Char), n < f →
      Nat.toDigitsCore 10 f n l = decDigitsAux n ++ l := by
  intro f
  induction f with
  | zero => intro n l h; omega
  | succ f ih =>
    intro n l h
    rw [Nat.toDigitsCore]
    by_cases h0 : n / 10 = 0
    · simp only [h0, if_true, eq_self_iff_true]
      conv_rhs => rw [decDigitsAux]
      rw [dif_pos h0]
      rfl
    · simp only [h0, if_false]
      have hlt : n / 10 < f := by omega
      rw [ih (n / 10) _ hlt]
      conv_rhs => rw [decDigitsAux]
      rw [dif_neg h0, List.append_assoc]
      rfl

theorem repr_data_eq (n : Nat) : (Nat.repr n).data = decDigitsAux n := by
  show (List.asString (Nat.toDigitsCore 10 (n + 1) n [])).data = decDigitsAux n
  rw [toDigitsCore_eq_decDigitsAux (n + 1) n [] (Nat.lt_succ_self n), List.append_nil]
  rfl

theorem digitChar_isDigit {m : Nat} (h : m < 10) : (Nat.digitChar m).isDigit = true := by
  have hfin : ∀ i : Fin 10, (Nat.digitChar i.val).isDigit = true := by decide
  exact hfin ⟨m, h⟩

theorem decDigitsAux_all_isDigit (n : Nat) : ∀ c ∈ decDigitsAux n, c.isDigit = true := by
  induction n using decDigitsAux.induct with
  | case1 n h0 =>
    rw [decDigitsAux, dif_pos h0]
    intro c hc
    rw [List.mem_singleton] at hc
    subst hc
    exact digitChar_isDigit (by omega)
  | case2 n h0 ih =>
    rw [decDigitsAux, dif_neg h0]
    intro c hc
    rcases List.mem_append.mp hc with hm | hm
    · exact ih c hm
    · rw [List.mem_singleton] at hm
      subst hm
      exact digitChar_isDigit (by omega)

theorem decDigitsAux_length_one {n : Nat} (h : n ≤ 9) : (decDigitsAux n).length = 1 := by
  rw [decDigitsAux, dif_pos (by omega)]
  rfl

theorem decDigitsAux_length_two {n : Nat} (h1 : 10 ≤ n) (h2 : n ≤ 99) :
    (decDigitsAux n).length = 2 := by
  rw [decDigitsAux, dif_neg (by omega), List.length_append,
    decDigitsAux_length_one (n := n / 10) (by omega)]
  rfl

theorem decDigitsAux_length_three {n : Nat} (h1 : 100 ≤ n) (h2 : n ≤ 999) :
    (decDigitsAux n).length = 3 := by
  rw [decDigitsAux, dif_neg (by omega), List.length_append,
    decDigitsAux_length_two (n := n / 10) (by omega) (by omega)]
  rfl

theorem decDigitsAux_length_four {n : Nat} (h1 : 1000 ≤ n) (h2 : n ≤ 9999) :
    (decDigitsAux n).length = 4 := by
  rw [decDigitsAux, dif_neg (by omega), List.length_append,
    decDigitsAux_length_three (n := n / 10) (by omega) (by omega)]
  rfl

/-! ## Shape of the rendered date fields -/

/-- A string of exactly two decimal digits. -/
def twoDigitsStr (s : String) : Bool :=
  s.length == 2 && s.data.all Char.isDigit

/-- A string of exactly four decimal digits. -/
def fourDigitsStr (s : String) : Bool :=
  s.length == 4 && s.data.all Char.isDigit

theorem jsNumToString_some (n : Nat) : jsNumToString (some n) = Nat.repr n := rfl

theorem string_length_data (s : String) : s.length = s.data.length := rfl

theorem padStart2_data (s : String) :
    (padStart2 s).data =
      if s.length ≥ 2 then s.data else List.replicate (2 - s.length) '0' ++ s.data := by
  rw [padStart2]
  by_cases h : s.length ≥ 2
  · rw [if_pos h, if_pos h]
  · rw [if_neg h, if_neg h]
    rfl

theorem fourDigits_year {n : Nat} (h1 : 1000 ≤ n) (h2 : n ≤ 9999) :
    fourDigitsStr (jsNumToString (some n)) = true := by
  rw [jsNumToString_some, fourDigitsStr, Bool.and_eq_true, beq_iff_eq,
    string_length_data, List.all_eq_true]
  have hd := repr_data_eq n
  refine ⟨?_, ?_⟩
  · rw [hd]
    exact decDigitsAux_length_four h1 h2
  · intro c hc
    exact decDigitsAux_all_isDigit n c (hd ▸ hc)

theorem twoDigits_field {n : Nat} (h : n ≤ 99) :
    twoDigitsStr (padStart2 (jsNumToString (some n))) = true := by
  rw [jsNumToString_some, twoDigitsStr, Bool.and_eq_true, beq_iff_eq,
    string_length_data, List.all_eq_true, padStart2_data]
  have hd := repr_data_eq n
  have hdig := decDigitsAux_all_isDigit n
  by_cases h1 : n ≤ 9
  · have hlen : (Nat.repr n).length = 1 := by
      rw [string_length_data, hd]
      exact decDigitsAux_length_one h1
    rw [if_neg (by omega)]
    refine ⟨?_, ?_⟩
    · rw [List.length_append, List.length_replicate, ← string_length_data, hlen]
    · intro c hc
      rcases List.mem_append.mp hc with hc | hc
      · have hc0 : c = '0' := List.eq_of_mem_replicate hc
        subst hc0
        rfl
      · exact hdig c (hd ▸ hc)
  · have hlen : (Nat.repr n).length = 2 := by
      rw [string_length_data, hd]
      exact decDigitsAux_length_two (by omega) h
    rw [if_pos (by omega)]
    refine ⟨?_, fun c hc => hdig c (hd ▸ hc)⟩
    rw [← string_length_data]
    exact hlen

theorem matchesYMDHM_assemble {y m d h mi : String}
    (hy : fourDigitsStr y = true) (hm : twoDigitsStr m = true)
    (hd : twoDigitsStr d = true) (hh : twoDigitsStr h = true)
    (hmi : twoDigitsStr mi = true) :
    matchesYMDHM (y ++ "/" ++ m ++ "/" ++ d ++ " " ++ h ++ ":" ++ mi) = true := by
  rw [fourDigitsStr, Bool.and_eq_true, beq_iff_eq, string_length_data,
    List.all_eq_true] at hy
  rw [twoDigitsStr, Bool.and_eq_true, beq_iff_eq, string_length_data,
    List.all_eq_true] at hm hd hh hmi
  obtain ⟨hylen, hydig⟩ := hy
  obtain ⟨hmlen, hmdig⟩ := hm
  obtain ⟨hdlen, hddig⟩ := hd
  obtain ⟨hhlen, hhdig⟩ := hh
  obtain ⟨hmilen, hmidig⟩ := hmi
  obtain ⟨y1, y2, y3, y4, hyd⟩ : ∃ a b c e, y.data = [a, b, c, e] := by
    rcases hl : y.data with _ | ⟨a, _ | ⟨b, _ | ⟨c, _ | ⟨e, _ | ⟨f, t⟩⟩⟩⟩⟩ <;>
        rw [hl] at hylen <;> simp at hylen
    exact ⟨a, b, c, e, rfl⟩
  obtain ⟨m1, m2, hmd⟩ : ∃ a b, m.data = [a, b] := by
    rcases hl : m.data with _ | ⟨a, _ | ⟨b, _ | ⟨c, t⟩⟩⟩ <;>
        rw [hl] at hmlen <;> simp at hmlen
    exact ⟨a, b, rfl⟩
  obtain ⟨d1, d2, hdd⟩ : ∃ a b, d.data = [a, b] := by
    rcases hl : d.data with _ | ⟨a, _ | ⟨b, _ | ⟨c, t⟩⟩⟩ <;>
        rw [hl] at hdlen <;> simp at hdlen
    exact ⟨a, b, rfl⟩
  obtain ⟨h1, h2, hhd⟩ : ∃ a b, h.data = [a, b] := by
    rcases hl : h.data with _ | ⟨a, _ | ⟨b, _ | ⟨c, t⟩⟩⟩ <;>
        rw [hl] at hhlen <;> simp at hhlen
    exact ⟨a, b, rfl⟩
  obtain ⟨n1, n2, hmid⟩ : ∃ a b, mi.data = [a, b] := by
    rcases hl : mi.data with _ | ⟨a, _ | ⟨b, _ | ⟨c, t⟩⟩⟩ <;>
        rw [hl] at hmilen <;> simp at hmilen
    exact ⟨a, b, rfl⟩
  have hy1 := hydig y1 (by rw [hyd]; simp)
  have hy2 := hydig y2 (by rw [hyd]; simp)
  have hy3 := hydig y3 (by rw [hyd]; simp)
  have hy4 := hydig y4 (by rw [hyd]; simp)
  have hm1 := hmdig m1 (by rw [hmd]; simp)
  have hm2 := hmdig m2 (by rw [hmd]; simp)
  have hd1 := hddig d1 (by rw [hdd]; simp)
  have hd2 := hddig d2 (by rw [hdd]; simp)
  have hh1 := hhdig h1 (by rw [hhd]; simp)
  have hh2 := hhdig h2 (by rw [hhd]; simp)
  have hn1 := hmidig n1 (by rw [hmid]; simp)
  have hn2 := hmidig n2 (by rw [hmid]; simp)
  have hbig : (y ++ "/" ++ m ++ "/" ++ d ++ " " ++ h ++ ":" ++ mi).data =
      [y1, y2, y3, y4, '/', m1, m2, '/', d1, d2, ' ', h1, h2, ':', n1, n2] := by
    simp [String.data_append, hyd, hmd, hdd, hhd, hmid]
  rw [matchesYMDHM, hbig]
  simp [hy1, hy2, hy3, hy4, hm1, hm2, hd1, hd2, hh1, hh2, hn1, hn2]

/-! ## Claims about `formatDate` -/

/-- C3 counterexample: `"garbage"` is non-empty and does not parse to a valid
date, yet `formatDate` returns the sentinel `"NaN/NaN/NaN NaN:NaN"`, not the
empty string the claim demands. -/
theorem formatDate_garbage :
    hostParse "garbage" = none ∧
      formatDate hostParse "garbage" = "NaN/NaN/NaN NaN:NaN" ∧
      ("NaN/NaN/NaN NaN:NaN" : String) ≠ "" := by
  refine ⟨by decide, by decide, by decide⟩

/-- C3 (amended): empty input yields the empty string, but a non-empty input
that does not parse to a valid date yields the fixed sentinel
`"NaN/NaN/NaN NaN:NaN"` (every field renders as `NaN`); the function is total,
so it never throws and its output is always one of these fixed shapes. -/
theorem formatDate_empty_or_invalid (parse : String → Option DateComponents)
    (inputDate : String) :
    (inputDate = "" → formatDate parse inputDate = "") ∧
    (inputDate ≠ "" → parse inputDate = none →
      formatDate parse inputDate = "NaN/NaN/NaN NaN:NaN") := by
  constructor
  · intro h
    rw [formatDate, if_pos h]
  · intro h1 h2
    rw [formatDate, if_neg h1, h2]
    rfl

/-- Witness for C3: the amended statement applied at the empty input and at
the unparseable input `"garbage"`. -/
theorem formatDate_empty_or_invalid_witness :
    formatDate hostParse "" = "" ∧
      (("garbage" : String) ≠ "" ∧ hostParse "garbage" = none ∧
        formatDate hostParse "garbage" = "NaN/NaN/NaN NaN:NaN") :=
  ⟨(formatDate_empty_or_invalid hostParse "").1 rfl,
    by decide, by decide,
    (formatDate_empty_or_invalid hostParse "garbage").2 (by decide) (by decide)⟩

/-- C9: a non-empty input the host cannot parse makes every component
accessor return `NaN`; `(NaN + 1)` is still `NaN`, `NaN.toString()` is
`"NaN"`, and padding the 3-character `"NaN"` to width 2 changes nothing, so
the output is exactly `"NaN/NaN/NaN NaN:NaN"` and no exception is thrown. -/
theorem formatDate_invalid_sentinel (parse : String → Option DateComponents)
    (input : String) (h1 : input ≠ "") (h2 : parse input = none) :
    formatDate parse input = "NaN/NaN/NaN NaN:NaN" := by
  rw [formatDate, if_neg h1, h2]
  rfl

/-- Witness for C9: the sentinel output at the unparseable input
`"not a date"`. -/
theorem formatDate_invalid_sentinel_witness :
    (("not a date" : String) ≠ "" ∧ hostParse "not a date" = none) ∧
      formatDate hostParse "not a date" = "NaN/NaN/NaN NaN:NaN" :=
  ⟨⟨by decide, by decide⟩,
    formatDate_invalid_sentinel hostParse "not a date" (by decide) (by decide)⟩

/-- C8 counterexample: `"0202-01-05T09:03:00"` parses to a valid date with
year 202, but `getFullYear()` is rendered without padding, so the output
`"202/01/05 09:03"` has a three-digit year and does not match the claimed
`YYYY/MM/DD HH:mm` pattern. -/
theorem formatDate_three_digit_year :
    hostParse "0202-01-05T09:03:00" = some ⟨202, 0, 5, 9, 3⟩ ∧
      formatDate hostParse "0202-01-05T09:03:00" = "202/01/05 09:03" ∧
      matchesYMDHM "202/01/05 09:03" = false := by
  refine ⟨by decide, by decide, by decide⟩

/-- C8 (amended): for a non-empty input that parses to a valid date whose
components are in calendar range (month index below 12, day 1–31, hour below
24, minute below 60) and whose year lies between 1000 and 9999, the output
matches `YYYY/MM/DD HH:mm` with month, day, hour and minute zero-padded to
width 2; the year is rendered unpadded, so it is four digits exactly when it
lies in that range, and `format("2023-01-05T09:03:00")` is
`"2023/01/05 09:03"`. -/
theorem formatDate_matches_pattern :
    (∀ (parse : String → Option DateComponents) (input : String)
      (d : DateComponents), input ≠ "" → parse input = some d →
      d.month < 12 → 1 ≤ d.day → d.day ≤ 31 → d.hours < 24 → d.minutes < 60 →
      1000 ≤ d.year → d.year ≤ 9999 →
      matchesYMDHM (formatDate parse input) = true) ∧
    formatDate hostParse "2023-01-05T09:03:00" = "2023/01/05 09:03" := by
  refine ⟨?_, by decide⟩
  intro parse input d hne hp hm hda hdb hh hmi hy1 hy2
  rw [formatDate, if_neg hne, hp]
  simp only [Option.map_some']
  exact matchesYMDHM_assemble (fourDigits_year hy1 hy2)
    (twoDigits_field (by omega)) (twoDigits_field (by omega))
    (twoDigits_field (by omega)) (twoDigits_field (by omega))

/-- Witness for C8: the universal part applied to the host parse of
`"2023-01-05T09:03:00"`. -/
theorem formatDate_matches_pattern_witness :
    hostParse "2023-01-05T09:03:00" = some ⟨2023, 0, 5, 9, 3⟩ ∧
      matchesYMDHM (formatDate hostParse "2023-01-05T09:03:00") = true :=
  ⟨by decide,
    formatDate_matches_pattern.1 hostParse "2023-01-05T09:03:00" ⟨2023, 0, 5, 9, 3⟩
      (by decide) (by decide) (by decide) (by decide) (by decide) (by decide)
      (by decide) (by decide) (by decide)⟩

/-! ## Lemmas about the base64 alphabet and the reference encoding -/

/-- The padding characters the reference encoder appends after the alphabet
characters (proof helper). -/
def padTail : List Nat → List Char
  | _ :: _ :: _ :: rest => padTail rest
  | [_, _] => ['=']
  | [_] => ['=', '=']
  | [] => []

theorem b64CharAt_not_ws (v : Nat) : isAsciiWhitespace (b64CharAt v) = false := by
  by_cases h : v < 64
  · have hfin : ∀ i : Fin 64, isAsciiWhitespace (b64CharAt i.val) = false := by decide
    exact hfin ⟨v, h⟩
  · rw [b64CharAt, List.getD_eq_default]
    · rfl
    · have hlen : base64Alphabet.length = 64 := rfl
      omega

theorem b64CharAt_ne_eq (v : Nat) : b64CharAt v ≠ '=' := by
  by_cases h : v < 64
  · have hfin : ∀ i : Fin 64, b64CharAt i.val ≠ '=' := by decide
    exact hfin ⟨v, h⟩
  · rw [b64CharAt, List.getD_eq_default]
    · decide
    · have hlen : base64Alphabet.length = 64 := rfl
      omega

theorem b64CharVal_b64CharAt {v : Nat} (h : v < 64) : b64CharVal (b64CharAt v) = some v := by
  have hfin : ∀ i : Fin 64, b64CharVal (b64CharAt i.val) = some i.val := by decide
  exact hfin ⟨v, h⟩

theorem encode3_eq (bs : List Nat) :
    encode3 bs = (valsOf bs).map b64CharAt ++ padTail bs := by
  induction bs using encode3.induct with
  | case1 x y z rest ih => simp [encode3, valsOf, padTail, ih]
  | case2 x y => rfl
  | case3 x => rfl
  | case4 => rfl

theorem encode3_length_mod4 (bs : List Nat) : (encode3 bs).length % 4 = 0 := by
  induction bs using encode3.induct with
  | case1 x y z rest ih =>
    simp only [encode3, List.length_cons]
    omega
  | case2 x y => simp [encode3]
  | case3 x => simp [encode3]
  | case4 => rfl

theorem padTail_mem (bs : List Nat) : ∀ c ∈ padTail bs, c = '=' := by
  induction bs using padTail.induct with
  | case1 x y z rest ih => simpa [padTail] using ih
  | case2 x y => simp [padTail]
  | case3 x => simp [padTail]
  | case4 => simp [padTail]

theorem encode3_filter_ws (bs : List Nat) :
    (encode3 bs).filter (fun c => !isAsciiWhitespace c) = encode3 bs := by
  rw [List.filter_eq_self]
  intro c hc
  rw [encode3_eq] at hc
  rcases List.mem_append.mp hc with hm | hm
  · obtain ⟨v, _, rfl⟩ := List.mem_map.mp hm
    simp [b64CharAt_not_ws]
  · have hc' : c = '=' := padTail_mem bs c hm
    subst hc'
    rfl

theorem valsOf_lt (bs : List Nat) (h : ∀ b ∈ bs, b < 256) : ∀ v ∈ valsOf bs, v < 64 := by
  induction bs using valsOf.induct with
  | case1 x y z rest ih =>
    intro v hv
    have hx : x < 256 := h x (by simp)
    have hy : y < 256 := h y (by simp)
    have hz : z < 256 := h z (by simp)
    simp only [valsOf, List.mem_cons] at hv
    rcases hv with rfl | rfl | rfl | rfl | hv
    · omega
    · omega
    · omega
    · omega
    · exact ih (fun b hb => h b (by simp [hb])) v hv
  | case2 x y =>
    intro v hv
    have hx : x < 256 := h x (by simp)
    have hy : y < 256 := h y (by simp)
    simp only [valsOf, List.mem_cons] at hv
    rcases hv with rfl | rfl | rfl | hv
    · omega
    · omega
    · omega
    · simp at hv
  | case3 x =>
    intro v hv
    have hx : x < 256 := h x (by simp)
    simp only [valsOf, List.mem_cons] at hv
    rcases hv with rfl | rfl | hv
    · omega
    · omega
    · simp at hv
  | case4 =>
    intro v hv
    simp [valsOf] at hv

theorem valsOf_length_mod4 (bs : List Nat) : (valsOf bs).length % 4 ≠ 1 := by
  induction bs using valsOf.induct with
  | case1 x y z rest ih =>
    simp only [valsOf, List.length_cons]
    omega
  | case2 x y => simp [valsOf]
  | case3 x => simp [valsOf]
  | case4 => decide

theorem mapVals_map_b64CharAt (vs : List Nat) (h : ∀ v ∈ vs, v < 64) :
    mapVals (vs.map b64CharAt) = some vs := by
  induction vs with
  | nil => rfl
  | cons v vs ih =>
    simp only [List.map_cons, mapVals]
    rw [b64CharVal_b64CharAt (h v (by simp)), ih (fun u hu => h u (by simp [hu]))]

theorem decode6_valsOf (bs : List Nat) (h : ∀ b ∈ bs, b < 256) :
    decode6 (valsOf bs) = bs := by
  induction bs using valsOf.induct with
  | case1 x y z rest ih =>
    have hx : x < 256 := h x (by simp)
    have hy : y < 256 := h y (by simp)
    have hz : z < 256 := h z (by simp)
    simp only [valsOf, decode6, List.cons.injEq]
    refine ⟨by omega, by omega, by omega, ih (fun b hb => h b (by simp [hb]))⟩
  | case2 x y =>
    have hx : x < 256 := h x (by simp)
    have hy : y < 256 := h y (by simp)
    simp only [valsOf, decode6, List.cons.injEq]
    refine ⟨by omega, by omega, trivial⟩
  | case3 x =>
    have hx : x < 256 := h x (by simp)
    simp only [valsOf, decode6, List.cons.injEq]
    refine ⟨by omega, trivial⟩
  | case4 => rfl

theorem dropTrailingEq_append_two (l : List Char) :
    dropTrailingEq (l ++ ['=', '=']) = l := by
  unfold dropTrailingEq
  rw [show (l ++ ['=', '=']).reverse = '=' :: '=' :: l.reverse by simp]
  simp

theorem dropTrailingEq_append_one (l : List Char) (c : Char) (hc : c ≠ '=') :
    dropTrailingEq (l ++ [c, '=']) = l ++ [c] := by
  unfold dropTrailingEq
  rw [show (l ++ [c, '=']).reverse = '=' :: c :: l.reverse by simp]
  simp [hc]

theorem dropTrailingEq_no_eq (l : List Char) (h : ∀ c ∈ l, c ≠ '=') :
    dropTrailingEq l = l := by
  unfold dropTrailingEq
  cases hr : l.reverse with
  | nil => rfl
  | cons c1 rest =>
    have hc1 : c1 ∈ l := by
      have hmem : c1 ∈ l.reverse := by
        rw [hr]
        simp
      simpa using hmem
    simp [h c1 hc1]

theorem valsOf_padTail_shape (bs : List Nat) :
    padTail bs = [] ∨
      (padTail bs = ['='] ∧ ∃ l v, valsOf bs = l ++ [v]) ∨
      (padTail bs = ['=', '='] ∧ ∃ l v, valsOf bs = l ++ [v]) := by
  induction bs using padTail.induct with
  | case1 x y z rest ih =>
    rcases ih with h | ⟨h, l, v, hv⟩ | ⟨h, l, v, hv⟩
    · left
      simpa [padTail] using h
    · right; left
      refine ⟨by simpa [padTail] using h, ?_⟩
      exact ⟨x / 4 :: ((x % 4) * 16 + y / 16) :: ((y % 16) * 4 + z / 64) :: (z % 64) :: l, v,
        by simp [valsOf, hv]⟩
    · right; right
      refine ⟨by simpa [padTail] using h, ?_⟩
      exact ⟨x / 4 :: ((x % 4) * 16 + y / 16) :: ((y % 16) * 4 + z / 64) :: (z % 64) :: l, v,
        by simp [valsOf, hv]⟩
  | case2 x y =>
    right; left
    exact ⟨rfl, [x / 4, (x % 4) * 16 + y / 16], (y % 16) * 4, rfl⟩
  | case3 x =>
    right; right
    exact ⟨rfl, [x / 4], (x % 4) * 16, rfl⟩
  | case4 => left; rfl

theorem stripPadding_encode3 (bs : List Nat) :
    stripPadding (encode3 bs) = (valsOf bs).map b64CharAt := by
  have hcond : ((encode3 bs).length % 4 == 0) = true := by
    simp [encode3_length_mod4 bs]
  rw [stripPadding, if_pos hcond, encode3_eq]
  rcases valsOf_padTail_shape bs with hp | ⟨hp, l, v, hv⟩ | ⟨hp, l, v, hv⟩
  · rw [hp, List.append_nil]
    refine dropTrailingEq_no_eq _ (fun c hc => ?_)
    obtain ⟨u, _, rfl⟩ := List.mem_map.mp hc
    exact b64CharAt_ne_eq u
  · rw [hp, hv]
    calc dropTrailingEq ((l ++ [v]).map b64CharAt ++ ['='])
        = dropTrailingEq (l.map b64CharAt ++ [b64CharAt v, '=']) := by simp
      _ = l.map b64CharAt ++ [b64CharAt v] :=
          dropTrailingEq_append_one (l.map b64CharAt) (b64CharAt v) (b64CharAt_ne_eq v)
      _ = (l ++ [v]).map b64CharAt := by simp
  · rw [hp]
    exact dropTrailingEq_append_two _

theorem string_mk_data (l : List Char) : (String.mk l).data = l := rfl

theorem char_toNat_ofNat {b : Nat} (h : b < 256) : (Char.ofNat b).toNat = b := by
  have hv : b.isValidChar := Or.inl (by omega)
  rw [Char.ofNat, dif_pos hv]
  rfl

theorem range_getD_eq_map (l : List Char) :
    (List.range l.length).map (fun i => (l.getD i 'A').toNat) = l.map Char.toNat := by
  induction l with
  | nil => rfl
  | cons c t ih =>
    rw [List.length_cons, List.range_succ_eq_map, List.map_cons, List.map_map,
      List.map_cons]
    simp only [List.cons.injEq]
    refine ⟨rfl, ?_⟩
    rw [← ih]
    apply List.map_congr_left
    intro i hi
    rfl

theorem atob_encodeBase64 (bs : List Nat) (h : ∀ b ∈ bs, b < 256) :
    atob (encodeBase64 bs) = some (String.mk (bs.map Char.ofNat)) := by
  unfold atob encodeBase64
  rw [string_mk_data, encode3_filter_ws, stripPadding_encode3]
  rw [if_neg (by simp only [List.length_map, beq_iff_eq]; exact valsOf_length_mod4 bs)]
  rw [mapVals_map_b64CharAt _ (valsOf_lt bs h)]
  simp [decode6_valsOf bs h]

/-! ## Claims about the binary codec -/

/-- C5: decoding the reference standard-base64 encoding of any byte sequence
returns exactly that byte sequence (round-trip law). -/
theorem decodeBase64_roundtrip (bs : List Nat) (h : ∀ b ∈ bs, b < 256) :
    base64ToArrayBuffer (encodeBase64 bs) = some bs := by
  rw [base64ToArrayBuffer, atob_encodeBase64 bs h, Option.map_some']
  congr 1
  rw [show (String.mk (bs.map Char.ofNat)).length = (bs.map Char.ofNat).length from rfl,
    show (String.mk (bs.map Char.ofNat)).data = bs.map Char.ofNat from rfl,
    range_getD_eq_map, List.map_map]
  have hcongr : ∀ b ∈ bs, (Char.toNat ∘ Char.ofNat) b = id b := fun b hb =>
    char_toNat_ofNat (h b hb)
  rw [List.map_congr_left hcongr, List.map_id]

/-- Witness for C5: the round trip at the concrete byte sequence
`[0, 77, 200, 255]` (which exercises a 3-byte chunk plus a 1-byte tail and a
byte above 127). -/
theorem decodeBase64_roundtrip_witness :
    (∀ b ∈ ([0, 77, 200, 255] : List Nat), b < 256) ∧
      base64ToArrayBuffer (encodeBase64 [0, 77, 200, 255]) = some [0, 77, 200, 255] :=
  ⟨by decide, decodeBase64_roundtrip [0, 77, 200, 255] (by decide)⟩

/-- C6: whenever the host decoder succeeds, the returned buffer has exactly
one byte per character of the decoded binary string: no truncation, no
padding. -/
theorem base64ToArrayBuffer_length (s : String) (bin : String) (h : atob s = some bin) :
    ∃ bs : List Nat, base64ToArrayBuffer s = some bs ∧ bs.length = bin.length := by
  rw [base64ToArrayBuffer, h, Option.map_some']
  refine ⟨_, rfl, ?_⟩
  rw [List.length_map, List.length_range]

/-- Witness for C6: the decode of `"QUJD"` (three bytes `"ABC"`). -/
theorem base64ToArrayBuffer_length_witness :
    atob "QUJD" = some "ABC" ∧
      ∃ bs : List Nat, base64ToArrayBuffer "QUJD" = some bs ∧
        bs.length = ("ABC" : String).length :=
  ⟨by decide, base64ToArrayBuffer_length "QUJD" "ABC" (by decide)⟩

/-- C7: `base64ToArrayBuffer` fails exactly when the host decoder `atob`
fails — the decoding error is not caught, retried or recovered locally, and
no buffer is produced from an invalid input; in particular the spec's example
`"not-valid-base64!@#"` produces the error, not bytes. -/
theorem base64ToArrayBuffer_error_propagation :
    (∀ s : String, base64ToArrayBuffer s = none ↔ atob s = none) ∧
      base64ToArrayBuffer "not-valid-base64!@#" = none := by
  refine ⟨fun s => ?_, by decide⟩
  rw [base64ToArrayBuffer]
  cases atob s <;> simp

/-- C2 evidence: at the one-byte payload `0xC0` (base64 `"wA=="`), the file
built by `base64ToFile` holds the two UTF-8 bytes `[0xC3, 0x80]` of the
binary string's single character, while the decoded binary length is 1 — the
`Blob` constructor UTF-8-encodes the binary string, so the file's byte length
differs from the decoded length for any payload with a byte ≥ 0x80 (the
filename itself is carried verbatim). -/
theorem base64ToFile_high_byte :
    base64ToFile "wA==" "a.bin" = some ⟨[195, 128], "a.bin"⟩ ∧
      (atob "wA==").map String.length = some 1 := by
  refine ⟨by decide, by decide⟩

end CanvasHelper
